import Mathlib

/-
Shallow embedding of `src/sautils/mixins.py` (SerializeMixin and its helpers
`_to_dict_rec` / `_from_dict_rec`).

Records are identified by natural numbers (object identity).  A `World`
packages the reflective interface the code consumes: for each record, the
ordered list of its mapper properties (`inspect(obj.__class__).iterate_properties`),
the current attribute store (`getattr` for non-relationship properties),
the relationship accessors (`getattr` for `RelationshipProperty` attributes,
split by `uselist`), and the optional `__include__` hook.

Python dicts are modelled as ordered association lists with overwrite-in-place
assignment (`dictSet`) and `dict.update` (`dictUpdate`); `data[k]` lookup is
`dictGet`, and a `KeyError` on a missing key is modelled by `Except.error`
carrying the key, mirroring `KeyError(key)`.
-/

namespace SAUtils

/-- A Python value stored in a model attribute or a serialized dict. -/
inductive DVal where
  | int : Int → DVal
  | str : String → DVal
  | bool : Bool → DVal
  | null : DVal
  | dict : List (String × DVal) → DVal
  | list : List DVal → DVal
  deriving Repr

/-- A Python dict, as an ordered association list. -/
abbrev Data := List (String × DVal)

/-- `data[k]` lookup (first matching key; keys are unique when built by `dictSet`). -/
def dictGet (d : Data) (k : String) : Option DVal :=
  match d with
  | [] => none
  | (k1, v) :: rest => if k1 = k then some v else dictGet rest k

/-- `data[k] = v`: overwrite in place when the key exists, else append
(Python dict insertion-order semantics). -/
def dictSet (d : Data) (k : String) (v : DVal) : Data :=
  if d.any (fun kv => kv.1 == k) then
    d.map (fun kv => if kv.1 = k then (k, v) else kv)
  else
    d ++ [(k, v)]

/-- `data.update(m)`: assign every pair of `m` in order. -/
def dictUpdate (d : Data) (m : List (String × DVal)) : Data :=
  m.foldl (fun acc kv => dictSet acc kv.1 kv.2) d

/-- `prop.key.lstrip('_')`: remove every leading underscore. -/
def lstrip (s : String) : String :=
  String.mk (s.data.dropWhile (fun c => c == '_'))

/-- The kind of a mapper property: a non-relationship (column) property, a
`RelationshipProperty` with `uselist` false, or one with `uselist` true. -/
inductive PropKind where
  | scalar : PropKind
  | toOne : PropKind
  | toMany : PropKind
  deriving Repr, DecidableEq

/-- One mapper property: its `key`, the value of `prop.info.get('serialize', True)`,
and its kind. -/
structure PropSpec where
  key : String
  serialize : Bool
  kind : PropKind
  deriving Repr, DecidableEq

/-- The attribute store: `getattr(obj, key)` for non-relationship properties. -/
abbrev Store := Nat → String → DVal

/-- The reflective interface consumed by the mixin, plus the finite universe
of record identities (used to bound the recursion fuel). -/
structure World where
  props : Nat → List PropSpec
  scalar : Store
  toOne : Nat → String → Option Nat
  toMany : Nat → String → List Nat
  extra : Nat → Option (List (String × DVal))
  univ : Finset Nat

/-- Every relationship reachable from a record of the universe stays inside
the universe (the object graph is finite and closed). -/
def World.Closed (w : World) : Prop :=
  ∀ r ∈ w.univ, ∀ p ∈ w.props r,
    (∀ c ∈ (w.toOne r p.key).toList, c ∈ w.univ) ∧
    (∀ c ∈ w.toMany r p.key, c ∈ w.univ)

instance (w : World) : Decidable w.Closed := by
  unfold World.Closed
  infer_instance

/-- The list comprehension `[_to_dict_rec(related, dict(), visited, ...) for
related in relationship]`, threading the shared mutable `visited` set;
`enc` is the recursive call on a related record. -/
def encodeMembers (enc : Nat → Finset Nat → Option (Data × Finset Nat)) :
    List Nat → Finset Nat → Option (List DVal × Finset Nat)
  | [], vis => some ([], vis)
  | r :: rest, vis =>
      match enc r vis with
      | none => none
      | some (d, vis2) =>
          match encodeMembers enc rest vis2 with
          | none => none
          | some (ds, vis3) => some (DVal.dict d :: ds, vis3)

/-- The body of the `for prop in ... .iterate_properties` loop of `_to_dict_rec`,
for a single property.  `enc` is the recursive call on a related record. -/
def stepProp (w : World) (enc : Nat → Finset Nat → Option (Data × Finset Nat))
    (obj : Nat) (follow force : Bool) (p : PropSpec) (data : Data)
    (vis : Finset Nat) : Option (Data × Finset Nat) :=
  let ser := p.serialize || force
  match p.kind with
  | PropKind.scalar =>
      if ser then some (dictSet data (lstrip p.key) (w.scalar obj p.key), vis)
      else some (data, vis)
  | PropKind.toMany =>
      if follow && ser then
        let rel := w.toMany obj p.key
        if rel = [] then some (dictSet data (lstrip p.key) (DVal.list []), vis)
        else if rel.any (fun m => m ∈ vis) then some (data, vis)
        else
          match encodeMembers enc rel vis with
          | none => none
          | some (items, vis2) =>
              some (dictSet data (lstrip p.key) (DVal.list items), vis2)
      else some (data, vis)
  | PropKind.toOne =>
      if follow && ser then
        match w.toOne obj p.key with
        | none => some (dictSet data (lstrip p.key) DVal.null, vis)
        | some r =>
            if r ∈ vis then some (data, vis)
            else
              match enc r vis with
              | none => none
              | some (d, vis2) =>
                  some (dictSet data (lstrip p.key) (DVal.dict d), vis2)
      else some (data, vis)

/-- The property loop of `_to_dict_rec`, over the remaining properties. -/
def encodeProps (w : World) (enc : Nat → Finset Nat → Option (Data × Finset Nat))
    (obj : Nat) (follow force : Bool) :
    List PropSpec → Data → Finset Nat → Option (Data × Finset Nat)
  | [], data, vis => some (data, vis)
  | p :: rest, data, vis =>
      match stepProp w enc obj follow force p data vis with
      | none => none
      | some (d, vis2) => encodeProps w enc obj follow force rest d vis2

/-- `if hasattr(obj, '__include__'): data.update(obj.__include__())`. -/
def applyExtra (w : World) (obj : Nat) (d : Data) : Data :=
  match w.extra obj with
  | none => d
  | some m => dictUpdate d m

/-- `_to_dict_rec(obj, data, visited, follow_rels, force_serialization)`,
instrumented with fuel so the recursion is total; `to_dict` supplies enough
fuel for any closed finite world (proved below). -/
def to_dict_rec (w : World) : Nat → Nat → Data → Finset Nat → Bool → Bool →
    Option (Data × Finset Nat)
  | 0, _, _, _, _, _ => none
  | fuel + 1, obj, data, vis, follow, force =>
      match encodeProps w (fun r v => to_dict_rec w fuel r [] v follow force)
          obj follow force (w.props obj) data (insert obj vis) with
      | none => none
      | some (d, vis2) => some (applyExtra w obj d, vis2)

/-- `SerializeMixin.to_dict`: `_to_dict_rec(self, {}, set(), follow_rels,
force_serialization)`. -/
def to_dict (w : World) (obj : Nat) (follow force : Bool) : Option Data :=
  (to_dict_rec w (w.univ.card + 1) obj [] ∅ follow force).map Prod.fst

/-- `fun r2 k2 => setattr`-updated store. -/
def setStore (s : Store) (r : Nat) (k : String) (v : DVal) : Store :=
  fun r2 k2 => if r2 = r ∧ k2 = k then v else s r2 k2

/-- `_from_dict_rec(obj, data)`: assign `data[prop.key.lstrip('_')]` to every
non-relationship property, in order.  The function body has no `return`
statement, so it evaluates to Python `None`; the result pairs the mutated
attribute store with that returned reference (always `none`). -/
def from_dict_rec (obj : Nat) (data : Data) :
    List PropSpec → Store → Except String (Store × Option Nat)
  | [], store => Except.ok (store, none)
  | p :: rest, store =>
      match p.kind with
      | PropKind.scalar =>
          match dictGet data (lstrip p.key) with
          | none => Except.error (lstrip p.key)
          | some v => from_dict_rec obj data rest (setStore store obj p.key v)
      | _ => from_dict_rec obj data rest store

/-- `SerializeMixin.from_dict`: `return _from_dict_rec(self, model_dict)`. -/
def from_dict (w : World) (obj : Nat) (data : Data) :
    Except String (Store × Option Nat) :=
  from_dict_rec obj data (w.props obj) w.scalar

example :
    to_dict
      { props := fun _ => [⟨"partner", true, PropKind.toOne⟩]
        scalar := fun _ _ => DVal.null
        toOne := fun r _ => if r = 0 then some 1 else some 0
        toMany := fun _ _ => []
        extra := fun _ => none
        univ := {0, 1} } 0 true false =
      some [("partner", DVal.dict [])] := by rfl

example :
    from_dict
      { props := fun _ => [⟨"_x", true, PropKind.scalar⟩]
        scalar := fun _ _ => DVal.null
        toOne := fun _ _ => none
        toMany := fun _ _ => []
        extra := fun _ => none
        univ := {0} } 0 [] = Except.error "x" := by rfl

/-! ### Association-list (Python dict) lemmas -/

theorem dictGet_append (d1 d2 : Data) (k : String) :
    dictGet (d1 ++ d2) k =
      match dictGet d1 k with
      | some v => some v
      | none => dictGet d2 k := by
  induction d1 with
  | nil => rfl
  | cons kv rest ih =>
      obtain ⟨k1, v⟩ := kv
      by_cases h : k1 = k <;> simp [dictGet, h, ih]

theorem dictGet_eq_none_of_any_eq_false {d : Data} {k : String}
    (h : d.any (fun kv => kv.1 == k) = false) : dictGet d k = none := by
  induction d with
  | nil => rfl
  | cons kv rest ih =>
      obtain ⟨k1, v⟩ := kv
      rw [List.any_cons, Bool.or_eq_false_iff] at h
      have h1 : k1 ≠ k := by
        intro he
        rw [he] at h
        simp at h
      simp [dictGet, h1, ih h.2]

theorem dictGet_map_subst {d : Data} {k : String} {v : DVal}
    (h : d.any (fun kv => kv.1 == k) = true) :
    dictGet (d.map (fun kv => if kv.1 = k then (k, v) else kv)) k = some v := by
  induction d with
  | nil => simp at h
  | cons kv rest ih =>
      obtain ⟨k1, v1⟩ := kv
      rw [List.map_cons]
      by_cases h1 : k1 = k
      · rw [if_pos h1]
        simp [dictGet]
      · rw [if_neg h1]
        simp only [List.any_cons, Bool.or_eq_true, beq_iff_eq] at h
        rcases h with h2 | h2
        · exact absurd h2 h1
        · simp [dictGet, h1, ih h2]

theorem dictGet_map_subst_ne (d : Data) {k k2 : String} (v : DVal) (h : k2 ≠ k) :
    dictGet (d.map (fun kv => if kv.1 = k then (k, v) else kv)) k2 =
      dictGet d k2 := by
  induction d with
  | nil => rfl
  | cons kv rest ih =>
      obtain ⟨k1, v1⟩ := kv
      rw [List.map_cons]
      by_cases h1 : k1 = k
      · subst h1
        rw [if_pos rfl]
        have h2 : k1 ≠ k2 := fun he => h (he.symm)
        simp [dictGet, h2, ih]
      · rw [if_neg h1]
        by_cases h3 : k1 = k2 <;> simp [dictGet, h3, ih]

theorem dictGet_dictSet_self (d : Data) (k : String) (v : DVal) :
    dictGet (dictSet d k v) k = some v := by
  unfold dictSet
  by_cases h : d.any (fun kv => kv.1 == k) = true
  · rw [if_pos h]
    exact dictGet_map_subst h
  · have hf : d.any (fun kv => kv.1 == k) = false := by
      cases hh : d.any (fun kv => kv.1 == k)
      · rfl
      · exact absurd hh h
    rw [if_neg (by simp [hf])]
    rw [dictGet_append, dictGet_eq_none_of_any_eq_false hf]
    simp [dictGet]

theorem dictGet_dictSet_ne (d : Data) {k k2 : String} (v : DVal) (h : k2 ≠ k) :
    dictGet (dictSet d k v) k2 = dictGet d k2 := by
  unfold dictSet
  split
  · exact dictGet_map_subst_ne d v h
  · rw [dictGet_append]
    cases hd : dictGet d k2 with
    | none =>
        have h2 : k ≠ k2 := fun he => h he.symm
        simp [dictGet, h2]
    | some v1 => simp

theorem dictGet_dictSet_isSome {d : Data} {k2 : String} (k : String) (v : DVal)
    (h : (dictGet d k2).isSome = true) :
    (dictGet (dictSet d k v) k2).isSome = true := by
  by_cases he : k2 = k
  · subst he
    rw [dictGet_dictSet_self]
    rfl
  · rw [dictGet_dictSet_ne d v he]
    exact h

theorem dictGet_dictUpdate_not_mem {m : List (String × DVal)} {k : String}
    (h : ∀ kv ∈ m, kv.1 ≠ k) (d : Data) :
    dictGet (dictUpdate d m) k = dictGet d k := by
  induction m generalizing d with
  | nil => rfl
  | cons kv rest ih =>
      obtain ⟨k1, v1⟩ := kv
      have h1 : k1 ≠ k := h (k1, v1) (List.mem_cons_self _ _)
      have hstep : dictUpdate d ((k1, v1) :: rest) =
          dictUpdate (dictSet d k1 v1) rest := rfl
      rw [hstep, ih (fun kv hkv => h kv (List.mem_cons_of_mem _ hkv))]
      exact dictGet_dictSet_ne d v1 (fun he => h1 he.symm)

theorem dictGet_dictUpdate_mem {m : List (String × DVal)} {k : String} {v : DVal}
    (hnd : (m.map Prod.fst).Nodup) (hm : (k, v) ∈ m) (d : Data) :
    dictGet (dictUpdate d m) k = some v := by
  induction m generalizing d with
  | nil => cases hm
  | cons kv rest ih =>
      obtain ⟨k1, v1⟩ := kv
      rw [List.map_cons, List.nodup_cons] at hnd
      rcases List.mem_cons.mp hm with heq | hmem
      · cases heq
        have hrest : ∀ kv ∈ rest, kv.1 ≠ k := by
          intro kv hkv he
          have hmem2 : kv.1 ∈ rest.map Prod.fst :=
            List.mem_map_of_mem Prod.fst hkv
          rw [he] at hmem2
          exact hnd.1 hmem2
        have hstep : dictUpdate d ((k, v) :: rest) =
            dictUpdate (dictSet d k v) rest := rfl
        rw [hstep, dictGet_dictUpdate_not_mem hrest, dictGet_dictSet_self]
      · exact ih hnd.2 hmem _

theorem dictGet_dictUpdate_isSome {d : Data} {k : String}
    (h : (dictGet d k).isSome = true) (m : List (String × DVal)) :
    (dictGet (dictUpdate d m) k).isSome = true := by
  induction m generalizing d with
  | nil => exact h
  | cons kv rest ih => exact ih (dictGet_dictSet_isSome kv.1 kv.2 h)

/-! ### `lstrip('_')` lemmas -/

theorem dropWhile_replicate_append (n : Nat) (l : List Char)
    (h : l.head? ≠ some '_') :
    (List.replicate n '_' ++ l).dropWhile (fun c => c == '_') = l := by
  induction n with
  | zero =>
      simp only [List.replicate, List.nil_append]
      cases l with
      | nil => rfl
      | cons c cs =>
          have hc : c ≠ '_' := by
            intro he
            exact h (by simp [he])
          simp [List.dropWhile_cons, hc]
  | succ n ih => simp [List.replicate_succ, List.dropWhile_cons, ih]

theorem lstrip_underscores (n : Nat) (t : List Char) (h : t.head? ≠ some '_') :
    lstrip (String.mk (List.replicate n '_' ++ t)) = String.mk t := by
  unfold lstrip
  congr 1
  exact dropWhile_replicate_append n t h

/-! ### Monotonicity of the visited set -/

theorem encodeMembers_mono
    {enc : Nat → Finset Nat → Option (Data × Finset Nat)}
    (henc : ∀ r v o, enc r v = some o → v ⊆ o.2) :
    ∀ ms vis o, encodeMembers enc ms vis = some o → vis ⊆ o.2 := by
  intro ms
  induction ms with
  | nil =>
      intro vis o h
      simp only [encodeMembers] at h
      cases h
      exact Finset.Subset.refl vis
  | cons r rest ih =>
      intro vis o h
      simp only [encodeMembers] at h
      split at h
      · cases h
      next d vis2 he =>
        split at h
        · cases h
        next ds vis3 hm =>
          cases h
          exact (henc r vis (d, vis2) he).trans (ih vis2 (ds, vis3) hm)

theorem stepProp_mono {w : World}
    {enc : Nat → Finset Nat → Option (Data × Finset Nat)}
    (henc : ∀ r v o, enc r v = some o → v ⊆ o.2)
    {obj : Nat} {follow force : Bool} {p : PropSpec} :
    ∀ data vis o, stepProp w enc obj follow force p data vis = some o →
      vis ⊆ o.2 := by
  intro data vis o h
  simp only [stepProp] at h
  split at h
  · -- non-relationship property
    split at h <;> (cases h; exact Finset.Subset.refl vis)
  · -- uselist relationship
    split at h
    · split at h
      · cases h
        exact Finset.Subset.refl vis
      · split at h
        · cases h
          exact Finset.Subset.refl vis
        · split at h
          · cases h
          next items vis2 hm =>
            cases h
            exact encodeMembers_mono henc _ vis (items, vis2) hm
    · cases h
      exact Finset.Subset.refl vis
  · -- single-valued relationship
    split at h
    · split at h
      · cases h
        exact Finset.Subset.refl vis
      next r hr =>
        split at h
        · cases h
          exact Finset.Subset.refl vis
        · split at h
          · cases h
          next d vis2 he =>
            cases h
            exact henc r vis (d, vis2) he
    · cases h
      exact Finset.Subset.refl vis

theorem encodeProps_mono {w : World}
    {enc : Nat → Finset Nat → Option (Data × Finset Nat)}
    (henc : ∀ r v o, enc r v = some o → v ⊆ o.2)
    {obj : Nat} {follow force : Bool} :
    ∀ ps data vis o, encodeProps w enc obj follow force ps data vis = some o →
      vis ⊆ o.2 := by
  intro ps
  induction ps with
  | nil =>
      intro data vis o h
      simp only [encodeProps] at h
      cases h
      exact Finset.Subset.refl vis
  | cons p rest ih =>
      intro data vis o h
      simp only [encodeProps] at h
      split at h
      · cases h
      next d vis2 hs =>
        exact (stepProp_mono henc data vis _ hs).trans (ih d vis2 o h)

theorem to_dict_rec_mono (w : World) :
    ∀ fuel obj data vis follow force o,
      to_dict_rec w fuel obj data vis follow force = some o →
      insert obj vis ⊆ o.2 := by
  intro fuel
  induction fuel with
  | zero =>
      intro obj data vis follow force o h
      cases h
  | succ fuel ih =>
      intro obj data vis follow force o h
      simp only [to_dict_rec] at h
      split at h
      · cases h
      next d vis2 hm =>
        cases h
        have henc : ∀ r v o2,
            to_dict_rec w fuel r [] v follow force = some o2 → v ⊆ o2.2 :=
          fun r v o2 h2 => (Finset.subset_insert r v).trans
            (ih r [] v follow force o2 h2)
        exact encodeProps_mono henc _ data (insert obj vis) (d, vis2) hm

/-! ### Termination: enough fuel always succeeds -/

theorem encodeMembers_isSome {w : World}
    {enc : Nat → Finset Nat → Option (Data × Finset Nat)} {fuel : Nat}
    (henc_mono : ∀ r v o, enc r v = some o → v ⊆ o.2)
    (henc_some : ∀ r v, r ∈ w.univ → (w.univ \ insert r v).card < fuel →
      (enc r v).isSome = true) :
    ∀ ms visChk vis, (∀ m ∈ ms, m ∈ w.univ ∧ m ∉ visChk) → visChk ⊆ vis →
      (w.univ \ visChk).card ≤ fuel →
      (encodeMembers enc ms vis).isSome = true := by
  intro ms
  induction ms with
  | nil =>
      intro visChk vis _ _ _
      simp [encodeMembers]
  | cons m rest ih =>
      intro visChk vis hms hsub hcard
      obtain ⟨hmu, hmn⟩ := hms m (List.mem_cons_self m rest)
      have hssub : w.univ \ insert m visChk ⊂ w.univ \ visChk := by
        rw [Finset.ssubset_iff_of_subset
          (Finset.sdiff_subset_sdiff (Finset.Subset.refl _)
            (Finset.subset_insert m visChk))]
        exact ⟨m, Finset.mem_sdiff.mpr ⟨hmu, hmn⟩,
          fun hc => (Finset.mem_sdiff.mp hc).2 (Finset.mem_insert_self m visChk)⟩
      have hlt : (w.univ \ insert m vis).card < fuel :=
        lt_of_le_of_lt
          (Finset.card_le_card (Finset.sdiff_subset_sdiff (Finset.Subset.refl _)
            (Finset.insert_subset_insert m hsub)))
          (lt_of_lt_of_le (Finset.card_lt_card hssub) hcard)
      have hsome := henc_some m vis hmu hlt
      cases he : enc m vis with
      | none =>
          rw [he] at hsome
          simp at hsome
      | some o =>
          obtain ⟨d, vis2⟩ := o
          have ih2 := ih visChk vis2
            (fun x hx => hms x (List.mem_cons_of_mem m hx))
            (hsub.trans (henc_mono m vis (d, vis2) he)) hcard
          simp only [encodeMembers, he]
          cases hm2 : encodeMembers enc rest vis2 with
          | none =>
              rw [hm2] at ih2
              simp at ih2
          | some o2 =>
              obtain ⟨ds, vis3⟩ := o2
              simp

theorem stepProp_isSome {w : World}
    {enc : Nat → Finset Nat → Option (Data × Finset Nat)} {fuel : Nat}
    (henc_mono : ∀ r v o, enc r v = some o → v ⊆ o.2)
    (henc_some : ∀ r v, r ∈ w.univ → (w.univ \ insert r v).card < fuel →
      (enc r v).isSome = true)
    (obj : Nat) (follow force : Bool) (p : PropSpec)
    (hone : ∀ c ∈ (w.toOne obj p.key).toList, c ∈ w.univ)
    (hmany : ∀ c ∈ w.toMany obj p.key, c ∈ w.univ) :
    ∀ data vis, (w.univ \ vis).card ≤ fuel →
      (stepProp w enc obj follow force p data vis).isSome = true := by
  intro data vis hcard
  simp only [stepProp]
  split
  · split <;> simp
  · split
    · split
      · simp
      · split
        · simp
        next h2 =>
          have hall : ∀ m ∈ w.toMany obj p.key, m ∈ w.univ ∧ m ∉ vis := by
            intro m hm
            refine ⟨hmany m hm, ?_⟩
            intro hmv
            exact h2 (List.any_eq_true.mpr ⟨m, hm, by simpa using hmv⟩)
          have hsome := encodeMembers_isSome henc_mono henc_some
            (w.toMany obj p.key) vis vis hall (Finset.Subset.refl vis) hcard
          cases hm : encodeMembers enc (w.toMany obj p.key) vis with
          | none =>
              rw [hm] at hsome
              simp at hsome
          | some o =>
              obtain ⟨items, vis2⟩ := o
              simp [hm]
    · simp
  · split
    · split
      · simp
      next r hr =>
        split
        · simp
        next hnv =>
          have hru : r ∈ w.univ := hone r (by simp [hr])
          have hssub : w.univ \ insert r vis ⊂ w.univ \ vis := by
            rw [Finset.ssubset_iff_of_subset
              (Finset.sdiff_subset_sdiff (Finset.Subset.refl _)
                (Finset.subset_insert r vis))]
            exact ⟨r, Finset.mem_sdiff.mpr ⟨hru, hnv⟩,
              fun hc => (Finset.mem_sdiff.mp hc).2 (Finset.mem_insert_self r vis)⟩
          have hlt : (w.univ \ insert r vis).card < fuel :=
            lt_of_lt_of_le (Finset.card_lt_card hssub) hcard
          have hsome := henc_some r vis hru hlt
          cases he : enc r vis with
          | none =>
              rw [he] at hsome
              simp at hsome
          | some o =>
              obtain ⟨d, vis2⟩ := o
              simp [he]
    · simp

theorem encodeProps_isSome {w : World}
    {enc : Nat → Finset Nat → Option (Data × Finset Nat)} {fuel : Nat}
    (henc_mono : ∀ r v o, enc r v = some o → v ⊆ o.2)
    (henc_some : ∀ r v, r ∈ w.univ → (w.univ \ insert r v).card < fuel →
      (enc r v).isSome = true)
    (obj : Nat) (follow force : Bool) :
    ∀ ps : List PropSpec,
      (∀ p ∈ ps, (∀ c ∈ (w.toOne obj p.key).toList, c ∈ w.univ) ∧
        (∀ c ∈ w.toMany obj p.key, c ∈ w.univ)) →
      ∀ data vis, (w.univ \ vis).card ≤ fuel →
      (encodeProps w enc obj follow force ps data vis).isSome = true := by
  intro ps
  induction ps with
  | nil =>
      intro _ data vis _
      simp [encodeProps]
  | cons p rest ih =>
      intro hcl data vis hcard
      have hp := hcl p (List.mem_cons_self p rest)
      have hs := stepProp_isSome henc_mono henc_some obj follow force p
        hp.1 hp.2 data vis hcard
      cases hst : stepProp w enc obj follow force p data vis with
      | none =>
          rw [hst] at hs
          simp at hs
      | some o =>
          obtain ⟨d, vis2⟩ := o
          simp only [encodeProps, hst]
          apply ih (fun q hq => hcl q (List.mem_cons_of_mem p hq)) d vis2
          have hsub : vis ⊆ vis2 := stepProp_mono henc_mono data vis (d, vis2) hst
          exact le_trans
            (Finset.card_le_card
              (Finset.sdiff_subset_sdiff (Finset.Subset.refl _) hsub)) hcard

theorem to_dict_rec_isSome (w : World) (hw : w.Closed) :
    ∀ fuel obj vis data follow force, obj ∈ w.univ →
      (w.univ \ insert obj vis).card < fuel →
      (to_dict_rec w fuel obj data vis follow force).isSome = true := by
  intro fuel
  induction fuel with
  | zero =>
      intro obj vis data follow force _ h
      exact absurd h (Nat.not_lt_zero _)
  | succ fuel ih =>
      intro obj vis data follow force hobj hcard
      simp only [to_dict_rec]
      have hmono : ∀ r v o, to_dict_rec w fuel r [] v follow force = some o →
          v ⊆ o.2 :=
        fun r v o h => (Finset.subset_insert r v).trans
          (to_dict_rec_mono w fuel r [] v follow force o h)
      have hsome : ∀ r v, r ∈ w.univ → (w.univ \ insert r v).card < fuel →
          (to_dict_rec w fuel r [] v follow force).isSome = true :=
        fun r v hr hc => ih r v [] follow force hr hc
      have hprops := encodeProps_isSome hmono hsome obj follow force (w.props obj)
        (fun p hp => hw obj hobj p hp) data (insert obj vis)
        (Nat.le_of_lt_succ hcard)
      cases hm : encodeProps w (fun r v => to_dict_rec w fuel r [] v follow force)
          obj follow force (w.props obj) data (insert obj vis) with
      | none =>
          rw [hm] at hprops
          simp at hprops
      | some o =>
          obtain ⟨d, vis2⟩ := o
          simp [hm]

/-! ### Decode error lemma -/

theorem from_dict_rec_error_of_missing {obj : Nat} {data : Data} :
    ∀ ps store p, p ∈ ps → p.kind = PropKind.scalar →
      dictGet data (lstrip p.key) = none →
      ∃ k, from_dict_rec obj data ps store = Except.error k ∧
        ∃ q ∈ ps, q.kind = PropKind.scalar ∧ lstrip q.key = k ∧
          dictGet data k = none := by
  intro ps
  induction ps with
  | nil =>
      intro store p hp
      cases hp
  | cons q rest ih =>
      intro store p hp hk hmiss
      cases hq : q.kind with
      | scalar =>
          cases hget : dictGet data (lstrip q.key) with
          | none =>
              refine ⟨lstrip q.key, ?_, q, List.mem_cons_self q rest, hq, rfl, hget⟩
              simp only [from_dict_rec, hq, hget]
          | some v =>
              have hp2 : p ∈ rest := by
                rcases List.mem_cons.mp hp with heq | hp2
                · rw [heq] at hmiss
                  rw [hmiss] at hget
                  cases hget
                · exact hp2
              obtain ⟨k, hrun, q2, hq2, hq2k, hq2s, hq2g⟩ :=
                ih (setStore store obj q.key v) p hp2 hk hmiss
              refine ⟨k, ?_, q2, List.mem_cons_of_mem q hq2, hq2k, hq2s, hq2g⟩
              simp only [from_dict_rec, hq, hget]
              exact hrun
      | toOne =>
          have hp2 : p ∈ rest := by
            rcases List.mem_cons.mp hp with heq | hp2
            · rw [heq, hq] at hk
              cases hk
            · exact hp2
          obtain ⟨k, hrun, q2, hq2, hq2k, hq2s, hq2g⟩ := ih store p hp2 hk hmiss
          refine ⟨k, ?_, q2, List.mem_cons_of_mem q hq2, hq2k, hq2s, hq2g⟩
          simp only [from_dict_rec, hq]
          exact hrun
      | toMany =>
          have hp2 : p ∈ rest := by
            rcases List.mem_cons.mp hp with heq | hp2
            · rw [heq, hq] at hk
              cases hk
            · exact hp2
          obtain ⟨k, hrun, q2, hq2, hq2k, hq2s, hq2g⟩ := ih store p hp2 hk hmiss
          refine ⟨k, ?_, q2, List.mem_cons_of_mem q hq2, hq2k, hq2s, hq2g⟩
          simp only [from_dict_rec, hq]
          exact hrun

/-! ### Claim C3 -/

/-- C3: for every closed finite object graph — cyclic ones included — and
every record in it, `to_dict(record, follow_rels, force_serialization)`
terminates with a result: the fuel `univ.card + 1` is never exhausted,
because the visited set only grows and is checked before each descent. -/
theorem C3_to_dict_terminates (w : World) (hw : w.Closed) (obj : Nat)
    (hobj : obj ∈ w.univ) (follow force : Bool) :
    (to_dict w obj follow force).isSome = true := by
  unfold to_dict
  have hcard : (w.univ \ insert obj ∅).card < w.univ.card + 1 :=
    Nat.lt_succ_of_le (Finset.card_le_card Finset.sdiff_subset)
  have h := to_dict_rec_isSome w hw (w.univ.card + 1) obj ∅ [] follow force
    hobj hcard
  cases hm : to_dict_rec w (w.univ.card + 1) obj [] ∅ follow force with
  | none =>
      rw [hm] at h
      simp at h
  | some o => simp [hm]

/-- Two records pointing at each other through a single relationship
property with `uselist` false: the cyclic graph A.toOne = B, B.toOne = A. -/
def cycleWorld : World where
  props := fun _ => [⟨"partner", true, PropKind.toOne⟩]
  scalar := fun _ _ => DVal.null
  toOne := fun r _ => if r = 0 then some 1 else some 0
  toMany := fun _ _ => []
  extra := fun _ => none
  univ := {0, 1}

theorem C3_witness :
    cycleWorld.Closed ∧ 0 ∈ cycleWorld.univ ∧
      (to_dict cycleWorld 0 true false).isSome = true :=
  ⟨by decide, by decide,
    C3_to_dict_terminates cycleWorld (by decide) 0 (by decide) true false⟩

/-! ### Claim C1 -/

/-- A record type with a single non-relationship property `x`. -/
def c1World : World where
  props := fun _ => [⟨"x", true, PropKind.scalar⟩]
  scalar := fun _ _ => DVal.int 5
  toOne := fun _ _ => none
  toMany := fun _ _ => []
  extra := fun _ => none
  univ := {0}

/-- C1 (code bug): `from_dict` does mutate the record in place and never
constructs a new instance, but `_from_dict_rec` has no return statement, so
`from_dict` returns Python `None` (second component `none`), contradicting
its own docstring and the claim that the record instance is returned. -/
theorem C1_from_dict_returns_none :
    ∃ s, from_dict c1World 0 [("x", DVal.int 7)] = Except.ok (s, none) ∧
      s 0 "x" = DVal.int 7 :=
  ⟨setStore c1World.scalar 0 "x" (DVal.int 7), rfl, rfl⟩

/-! ### Claim C2 -/

/-- C2: in the encode property loop with `follow_rels = true`, a `uselist`
relationship whose non-empty collection contains at least one already-visited
record is skipped entirely — no key is emitted and data and visited set are
left unchanged — even when other members of the collection are unvisited. -/
theorem C2_toMany_visited_skipped (w : World)
    (enc : Nat → Finset Nat → Option (Data × Finset Nat))
    (obj : Nat) (force : Bool) (p : PropSpec) (rest : List PropSpec)
    (data : Data) (vis : Finset Nat)
    (hkind : p.kind = PropKind.toMany)
    (hser : (p.serialize || force) = true)
    (hne : w.toMany obj p.key ≠ [])
    (hvis : ∃ m ∈ w.toMany obj p.key, m ∈ vis) :
    encodeProps w enc obj true force (p :: rest) data vis =
      encodeProps w enc obj true force rest data vis := by
  have hany : (w.toMany obj p.key).any (fun m => m ∈ vis) = true := by
    obtain ⟨m, hm, hmv⟩ := hvis
    exact List.any_eq_true.mpr ⟨m, hm, by simpa using hmv⟩
  have hstep : stepProp w enc obj true force p data vis = some (data, vis) := by
    simp only [stepProp, hkind, hser, Bool.and_self, if_true, hne, hany]
    simp
  simp only [encodeProps, hstep]

/-- A record whose `uselist` relationship `kids` holds records 1 and 2. -/
def c2World : World where
  props := fun _ => [⟨"kids", true, PropKind.toMany⟩]
  scalar := fun _ _ => DVal.null
  toOne := fun _ _ => none
  toMany := fun r _ => if r = 0 then [1, 2] else []
  extra := fun _ => none
  univ := {0, 1, 2}

theorem C2_witness :
    encodeProps c2World (fun _ _ => none) 0 true false
        [⟨"kids", true, PropKind.toMany⟩] [] {1} =
      encodeProps c2World (fun _ _ => none) 0 true false [] [] {1} :=
  C2_toMany_visited_skipped c2World (fun _ _ => none) 0 false
    ⟨"kids", true, PropKind.toMany⟩ [] [] {1} rfl rfl (by decide)
    ⟨1, by decide, by decide⟩

/-! ### Claim C4 -/

/-- C4: for every record with a non-relationship property whose stripped key
is absent from the input mapping, `from_dict` fails with a `KeyError`
(`MissingFieldError`) naming a missing stripped field name — no default value
is substituted. -/
theorem C4_missing_field_error (w : World) (r : Nat) (data : Data)
    (p : PropSpec) (hp : p ∈ w.props r) (hk : p.kind = PropKind.scalar)
    (hmiss : dictGet data (lstrip p.key) = none) :
    ∃ k, from_dict w r data = Except.error k ∧
      ∃ q ∈ w.props r, q.kind = PropKind.scalar ∧ lstrip q.key = k ∧
        dictGet data k = none :=
  from_dict_rec_error_of_missing (w.props r) w.scalar p hp hk hmiss

/-- A record type with a single non-relationship property `x`, for C4. -/
def c4World : World where
  props := fun _ => [⟨"x", true, PropKind.scalar⟩]
  scalar := fun _ _ => DVal.int 5
  toOne := fun _ _ => none
  toMany := fun _ _ => []
  extra := fun _ => none
  univ := {0}

theorem C4_witness :
    ∃ k, from_dict c4World 0 [] = Except.error k ∧
      ∃ q ∈ c4World.props 0, q.kind = PropKind.scalar ∧ lstrip q.key = k ∧
        dictGet ([] : Data) k = none :=
  C4_missing_field_error c4World 0 [] ⟨"x", true, PropKind.scalar⟩
    (by decide) rfl rfl

/-! ### Which properties may write their key -/

/-- The branch condition under which the loop body may write the stripped key
of property `q` into the output dict. -/
def emits (follow force : Bool) (q : PropSpec) : Bool :=
  match q.kind with
  | PropKind.scalar => q.serialize || force
  | _ => follow && (q.serialize || force)

theorem stepProp_data_shape {w : World}
    {enc : Nat → Finset Nat → Option (Data × Finset Nat)}
    {obj : Nat} {follow force : Bool} {q : PropSpec}
    {data : Data} {vis : Finset Nat} {d : Data} {vis2 : Finset Nat}
    (h : stepProp w enc obj follow force q data vis = some (d, vis2)) :
    d = data ∨ ∃ v, d = dictSet data (lstrip q.key) v := by
  simp only [stepProp] at h
  split at h
  · split at h
    · cases h
      exact Or.inr ⟨_, rfl⟩
    · cases h
      exact Or.inl rfl
  · split at h
    · split at h
      · cases h
        exact Or.inr ⟨_, rfl⟩
      · split at h
        · cases h
          exact Or.inl rfl
        · split at h
          · cases h
          next items vis3 hm =>
            cases h
            exact Or.inr ⟨_, rfl⟩
    · cases h
      exact Or.inl rfl
  · split at h
    · split at h
      · cases h
        exact Or.inr ⟨_, rfl⟩
      next r hr =>
        split at h
        · cases h
          exact Or.inl rfl
        · split at h
          · cases h
          next d1 vis3 he =>
            cases h
            exact Or.inr ⟨_, rfl⟩
    · cases h
      exact Or.inl rfl

theorem stepProp_no_write {w : World}
    {enc : Nat → Finset Nat → Option (Data × Finset Nat)}
    {obj : Nat} {follow force : Bool} {q : PropSpec}
    {data : Data} {vis : Finset Nat} {d : Data} {vis2 : Finset Nat}
    (hne : emits follow force q = false)
    (h : stepProp w enc obj follow force q data vis = some (d, vis2)) :
    d = data := by
  simp only [stepProp] at h
  simp only [emits] at hne
  split at h
  next hkind =>
    rw [hkind] at hne
    have hne2 : (q.serialize || force) = false := hne
    rw [if_neg (by simp [hne2])] at h
    cases h
    rfl
  next hkind =>
    rw [hkind] at hne
    have hne2 : (follow && (q.serialize || force)) = false := hne
    rw [if_neg (by simp [hne2])] at h
    cases h
    rfl
  next hkind =>
    rw [hkind] at hne
    have hne2 : (follow && (q.serialize || force)) = false := hne
    rw [if_neg (by simp [hne2])] at h
    cases h
    rfl

theorem encodeProps_get_eq {w : World}
    {enc : Nat → Finset Nat → Option (Data × Finset Nat)}
    {obj : Nat} {follow force : Bool} {k : String} :
    ∀ ps data vis d vfin,
      (∀ q ∈ ps, lstrip q.key = k → emits follow force q = false) →
      encodeProps w enc obj follow force ps data vis = some (d, vfin) →
      dictGet d k = dictGet data k := by
  intro ps
  induction ps with
  | nil =>
      intro data vis d vfin _ h
      simp only [encodeProps] at h
      cases h
      rfl
  | cons q rest ih =>
      intro data vis d vfin hq h
      simp only [encodeProps] at h
      split at h
      · cases h
      next d1 v1 hs =>
        have h1 : dictGet d1 k = dictGet data k := by
          by_cases hkey : lstrip q.key = k
          · rw [stepProp_no_write (hq q (List.mem_cons_self q rest) hkey) hs]
          · rcases stepProp_data_shape hs with he | ⟨v, he⟩
            · rw [he]
            · rw [he]
              exact dictGet_dictSet_ne data v (fun he2 => hkey he2.symm)
        rw [ih d1 v1 d vfin (fun q2 h2 => hq q2 (List.mem_cons_of_mem q h2)) h,
          h1]

theorem encodeProps_preserves_isSome {w : World}
    {enc : Nat → Finset Nat → Option (Data × Finset Nat)}
    {obj : Nat} {follow force : Bool} {k : String} :
    ∀ ps data vis d vfin,
      encodeProps w enc obj follow force ps data vis = some (d, vfin) →
      (dictGet data k).isSome = true → (dictGet d k).isSome = true := by
  intro ps
  induction ps with
  | nil =>
      intro data vis d vfin h hp
      simp only [encodeProps] at h
      cases h
      exact hp
  | cons q rest ih =>
      intro data vis d vfin h hp
      simp only [encodeProps] at h
      split at h
      · cases h
      next d1 v1 hs =>
        refine ih d1 v1 d vfin h ?_
        rcases stepProp_data_shape hs with he | ⟨v, he⟩
        · rw [he]
          exact hp
        · rw [he]
          exact dictGet_dictSet_isSome _ v hp

theorem encodeProps_present {w : World}
    {enc : Nat → Finset Nat → Option (Data × Finset Nat)}
    {obj : Nat} {follow force : Bool} {k : String} {p : PropSpec}
    (hw : ∀ data vis d2 v2,
      stepProp w enc obj follow force p data vis = some (d2, v2) →
      (dictGet d2 k).isSome = true) :
    ∀ ps data vis d vfin, p ∈ ps →
      encodeProps w enc obj follow force ps data vis = some (d, vfin) →
      (dictGet d k).isSome = true := by
  intro ps
  induction ps with
  | nil =>
      intro data vis d vfin hp
      cases hp
  | cons q rest ih =>
      intro data vis d vfin hp h
      simp only [encodeProps] at h
      split at h
      · cases h
      next d1 v1 hs =>
        rcases List.mem_cons.mp hp with heq | hp2
        · subst heq
          exact encodeProps_preserves_isSome rest d1 v1 d vfin h
            (hw data vis d1 v1 hs)
        · exact ih d1 v1 d vfin hp2 h

theorem encodeProps_emit {w : World}
    {enc : Nat → Finset Nat → Option (Data × Finset Nat)}
    {obj : Nat} {follow force : Bool} {p : PropSpec} {v : DVal}
    (hstep : ∀ data vis, stepProp w enc obj follow force p data vis =
      some (dictSet data (lstrip p.key) v, vis)) :
    ∀ ps data vis d vfin, p ∈ ps →
      (ps.map (fun q => lstrip q.key)).Nodup →
      encodeProps w enc obj follow force ps data vis = some (d, vfin) →
      dictGet d (lstrip p.key) = some v := by
  intro ps
  induction ps with
  | nil =>
      intro data vis d vfin hp
      cases hp
  | cons q rest ih =>
      intro data vis d vfin hp hnd h
      rw [List.map_cons, List.nodup_cons] at hnd
      simp only [encodeProps] at h
      split at h
      · cases h
      next d1 v1 hs =>
        rcases List.mem_cons.mp hp with rfl | hp2
        · rw [hstep data vis] at hs
          cases hs
          have hrest : ∀ q2 ∈ rest, lstrip q2.key = lstrip p.key →
              emits follow force q2 = false := by
            intro q2 hq2 hkey
            have hmem2 : lstrip q2.key ∈
                rest.map (fun q : PropSpec => lstrip q.key) :=
              List.mem_map_of_mem (fun q : PropSpec => lstrip q.key) hq2
            rw [hkey] at hmem2
            exact absurd hmem2 hnd.1
          rw [encodeProps_get_eq rest (dictSet data (lstrip p.key) v) vis d vfin
            hrest h]
          exact dictGet_dictSet_self data (lstrip p.key) v
        · exact ih d1 v1 d vfin hp2 hnd.2 h

/-! ### Hook and top-level unfolding lemmas -/

/-- The pairs returned by the `__include__` hook (empty when absent). -/
def extraPairs (w : World) (r : Nat) : List (String × DVal) :=
  (w.extra r).getD []

theorem applyExtra_get_eq {w : World} {r : Nat} {k : String}
    (h : ∀ kv ∈ extraPairs w r, kv.1 ≠ k) (d : Data) :
    dictGet (applyExtra w r d) k = dictGet d k := by
  unfold applyExtra
  cases he : w.extra r with
  | none => rfl
  | some m =>
      apply dictGet_dictUpdate_not_mem
      intro kv hkv
      apply h
      unfold extraPairs
      rw [he]
      exact hkv

theorem applyExtra_isSome {w : World} {r : Nat} {k : String} {d : Data}
    (h : (dictGet d k).isSome = true) :
    (dictGet (applyExtra w r d) k).isSome = true := by
  unfold applyExtra
  cases w.extra r with
  | none => exact h
  | some m => exact dictGet_dictUpdate_isSome h m

theorem applyExtra_get_mem {w : World} {r : Nat} {m : List (String × DVal)}
    {k : String} {v : DVal} (he : w.extra r = some m)
    (hnd : (m.map Prod.fst).Nodup) (hm : (k, v) ∈ m) (d : Data) :
    dictGet (applyExtra w r d) k = some v := by
  unfold applyExtra
  rw [he]
  exact dictGet_dictUpdate_mem hnd hm d

theorem to_dict_eq (w : World) (r : Nat) (follow force : Bool) {d : Data}
    (h : to_dict w r follow force = some d) :
    ∃ d0 vis2,
      encodeProps w (fun x v => to_dict_rec w w.univ.card x [] v follow force)
        r follow force (w.props r) [] (insert r ∅) = some (d0, vis2) ∧
      d = applyExtra w r d0 := by
  unfold to_dict at h
  simp only [to_dict_rec] at h
  cases hm : encodeProps w
      (fun x v => to_dict_rec w w.univ.card x [] v follow force)
      r follow force (w.props r) [] (insert r ∅) with
  | none =>
      rw [hm] at h
      cases h
  | some o =>
      obtain ⟨d0, vis2⟩ := o
      rw [hm] at h
      simp at h
      exact ⟨d0, vis2, rfl, h.symm⟩

/-! ### What a single loop step writes, by property kind -/

theorem stepProp_scalar_emit {w : World}
    {enc : Nat → Finset Nat → Option (Data × Finset Nat)}
    {obj : Nat} {follow force : Bool} {p : PropSpec}
    (hk : p.kind = PropKind.scalar) (hser : (p.serialize || force) = true)
    (data : Data) (vis : Finset Nat) :
    stepProp w enc obj follow force p data vis =
      some (dictSet data (lstrip p.key) (w.scalar obj p.key), vis) := by
  simp only [stepProp, hk]
  rw [if_pos hser]

theorem stepProp_toMany_empty {w : World}
    {enc : Nat → Finset Nat → Option (Data × Finset Nat)}
    {obj : Nat} {follow force : Bool} {p : PropSpec}
    (hk : p.kind = PropKind.toMany)
    (hser : (follow && (p.serialize || force)) = true)
    (hrel : w.toMany obj p.key = []) (data : Data) (vis : Finset Nat) :
    stepProp w enc obj follow force p data vis =
      some (dictSet data (lstrip p.key) (DVal.list []), vis) := by
  simp only [stepProp, hk]
  rw [if_pos hser, if_pos hrel]

theorem stepProp_toOne_none {w : World}
    {enc : Nat → Finset Nat → Option (Data × Finset Nat)}
    {obj : Nat} {follow force : Bool} {p : PropSpec}
    (hk : p.kind = PropKind.toOne)
    (hser : (follow && (p.serialize || force)) = true)
    (hone : w.toOne obj p.key = none) (data : Data) (vis : Finset Nat) :
    stepProp w enc obj follow force p data vis =
      some (dictSet data (lstrip p.key) DVal.null, vis) := by
  simp only [stepProp, hk, hone]
  rw [if_pos hser]

/-! ### Claim C7 -/

/-- C7: when the record type implements the `__include__` hook, the returned
mapping is merged into the encode output after all reflected properties, and
its entries win over any reflected field of the same name: every pair (k, v)
of the hook result ends up as the output value at k. -/
theorem C7_extra_fields_win (w : World) (r : Nat) (follow force : Bool)
    (m : List (String × DVal)) (he : w.extra r = some m)
    (hnd : (m.map Prod.fst).Nodup) (k : String) (v : DVal) (hm : (k, v) ∈ m)
    (d : Data) (h : to_dict w r follow force = some d) :
    dictGet d k = some v := by
  obtain ⟨d0, vis2, henc, hd⟩ := to_dict_eq w r follow force h
  rw [hd]
  exact applyExtra_get_mem he hnd hm d0

/-- A record whose reflected field `foo` holds "bar" while its `__include__`
hook returns `{"foo": 42}`. -/
def c7World : World where
  props := fun _ => [⟨"foo", true, PropKind.scalar⟩]
  scalar := fun _ _ => DVal.str "bar"
  toOne := fun _ _ => none
  toMany := fun _ _ => []
  extra := fun _ => some [("foo", DVal.int 42)]
  univ := {0}

theorem C7_witness :
    dictGet [("foo", DVal.int 42)] "foo" = some (DVal.int 42) :=
  C7_extra_fields_win c7World 0 false false [("foo", DVal.int 42)] rfl
    (by simp) "foo" (DVal.int 42) (by simp) [("foo", DVal.int 42)] rfl

/-! ### Claim C6 -/

/-- A record with a single relationship property `r` marked serialize=false. -/
def c6World : World where
  props := fun _ => [⟨"r", false, PropKind.toOne⟩]
  scalar := fun _ _ => DVal.null
  toOne := fun _ _ => some 0
  toMany := fun _ _ => []
  extra := fun _ => none
  univ := {0}

/-- C6 counterexample: a relationship property annotated serialize=false is
still absent from `to_dict(force_serialization=true)` output when
follow_rels is false (the default), because the relationship branch also
requires follow_rels; this refutes "present when forceSerialization=true"
for every property. -/
theorem C6_counterexample :
    (∃ p ∈ c6World.props 0, p.serialize = false) ∧
      to_dict c6World 0 false true = some [] :=
  ⟨⟨⟨"r", false, PropKind.toOne⟩, List.mem_singleton.mpr rfl, rfl⟩, rfl⟩

/-- C6 (amended): for every non-relationship (scalar) property with
serialize=false, its stripped key is absent from `to_dict` output when
force_serialization=false — provided no other property shares the stripped
key and the `__include__` hook does not supply it — and it is present
whenever force_serialization=true. -/
theorem C6_scalar_visibility (w : World) (r : Nat) (follow : Bool)
    (p : PropSpec) (hp : p ∈ w.props r) (hk : p.kind = PropKind.scalar)
    (hs : p.serialize = false) :
    (∀ d, to_dict w r follow false = some d →
      ((w.props r).map (fun q => lstrip q.key)).Nodup →
      (∀ kv ∈ extraPairs w r, kv.1 ≠ lstrip p.key) →
      dictGet d (lstrip p.key) = none) ∧
    (∀ d, to_dict w r follow true = some d →
      (dictGet d (lstrip p.key)).isSome = true) := by
  constructor
  · intro d h hnd hex
    obtain ⟨d0, vis2, henc, hd⟩ := to_dict_eq w r follow false h
    rw [hd, applyExtra_get_eq hex d0]
    have hq : ∀ q ∈ w.props r, lstrip q.key = lstrip p.key →
        emits follow false q = false := by
      intro q hqm hkey
      have hqp : q = p :=
        List.inj_on_of_nodup_map hnd hqm hp hkey
      subst hqp
      simp only [emits, hk, hs]
      rfl
    rw [encodeProps_get_eq (w.props r) [] (insert r ∅) d0 vis2 hq henc]
    rfl
  · intro d h
    obtain ⟨d0, vis2, henc, hd⟩ := to_dict_eq w r follow true h
    rw [hd]
    apply applyExtra_isSome
    refine encodeProps_present ?_ (w.props r) [] (insert r ∅) d0 vis2 hp henc
    intro data vis d2 v2 hst
    rw [stepProp_scalar_emit hk (by simp) data vis] at hst
    cases hst
    rw [dictGet_dictSet_self]
    rfl

/-- A record with a single scalar property `h` marked serialize=false. -/
def c6AmendWorld : World where
  props := fun _ => [⟨"h", false, PropKind.scalar⟩]
  scalar := fun _ _ => DVal.int 3
  toOne := fun _ _ => none
  toMany := fun _ _ => []
  extra := fun _ => none
  univ := {0}

theorem C6_witness :
    dictGet [] (lstrip "h") = none ∧
      (dictGet [("h", DVal.int 3)] (lstrip "h")).isSome = true := by
  have hc := C6_scalar_visibility c6AmendWorld 0 false
    ⟨"h", false, PropKind.scalar⟩ (List.mem_singleton.mpr rfl) rfl rfl
  refine ⟨hc.1 [] rfl (by decide) ?_, hc.2 [("h", DVal.int 3)] rfl⟩
  intro kv hkv
  simp [extraPairs, c6AmendWorld] at hkv

/-! ### Claim C8 -/

/-- A record with a single `uselist` relationship `kids` marked
serialize=false whose collection is empty. -/
def c8World : World where
  props := fun _ => [⟨"kids", false, PropKind.toMany⟩]
  scalar := fun _ _ => DVal.null
  toOne := fun _ _ => none
  toMany := fun _ _ => []
  extra := fun _ => none
  univ := {0}

/-- C8 counterexample: with follow_rels=true, a `uselist` relationship with
an empty collection but serialize=false yields no key at all (the output is
the empty dict), not `[]`; the claim fails without the effective-serialize
condition. -/
theorem C8_counterexample :
    (∃ p ∈ c8World.props 0, p.kind = PropKind.toMany ∧ p.serialize = false ∧
        c8World.toMany 0 p.key = []) ∧
      to_dict c8World 0 true false = some [] :=
  ⟨⟨⟨"kids", false, PropKind.toMany⟩, List.mem_singleton.mpr rfl, rfl, rfl,
    rfl⟩, rfl⟩

/-- C8 (amended): in `to_dict` with follow_rels=true and effective
serialization (serialize or force_serialization), an empty `uselist`
relationship is encoded as `[]` and an absent single-valued relationship as
`null` — provided no other property shares the stripped key and the
`__include__` hook does not overwrite it. -/
theorem C8_empty_relationships (w : World) (r : Nat) (force : Bool)
    (p : PropSpec) (hp : p ∈ w.props r)
    (hser : (p.serialize || force) = true)
    (hnd : ((w.props r).map (fun q => lstrip q.key)).Nodup)
    (hex : ∀ kv ∈ extraPairs w r, kv.1 ≠ lstrip p.key)
    (d : Data) (h : to_dict w r true force = some d) :
    (p.kind = PropKind.toMany → w.toMany r p.key = [] →
      dictGet d (lstrip p.key) = some (DVal.list [])) ∧
    (p.kind = PropKind.toOne → w.toOne r p.key = none →
      dictGet d (lstrip p.key) = some DVal.null) := by
  obtain ⟨d0, vis2, henc, hd⟩ := to_dict_eq w r true force h
  constructor
  · intro hk hrel
    rw [hd, applyExtra_get_eq hex d0]
    exact encodeProps_emit
      (fun data vis => stepProp_toMany_empty hk (by simp [hser]) hrel data vis)
      (w.props r) [] (insert r ∅) d0 vis2 hp hnd henc
  · intro hk hone
    rw [hd, applyExtra_get_eq hex d0]
    exact encodeProps_emit
      (fun data vis => stepProp_toOne_none hk (by simp [hser]) hone data vis)
      (w.props r) [] (insert r ∅) d0 vis2 hp hnd henc

/-- A record with an empty `uselist` relationship `kids` and an absent
single-valued relationship `boss`, both serializable. -/
def c8AmendWorld : World where
  props := fun _ =>
    [⟨"kids", true, PropKind.toMany⟩, ⟨"boss", true, PropKind.toOne⟩]
  scalar := fun _ _ => DVal.null
  toOne := fun _ _ => none
  toMany := fun _ _ => []
  extra := fun _ => none
  univ := {0}

theorem C8_witness :
    dictGet [("kids", DVal.list []), ("boss", DVal.null)] (lstrip "kids") =
        some (DVal.list []) ∧
      dictGet [("kids", DVal.list []), ("boss", DVal.null)] (lstrip "boss") =
        some DVal.null := by
  have h1 := C8_empty_relationships c8AmendWorld 0 false
    ⟨"kids", true, PropKind.toMany⟩ (by decide) rfl (by decide)
    (fun kv hkv => by simp [extraPairs, c8AmendWorld] at hkv)
    [("kids", DVal.list []), ("boss", DVal.null)] rfl
  have h2 := C8_empty_relationships c8AmendWorld 0 false
    ⟨"boss", true, PropKind.toOne⟩ (by decide) rfl (by decide)
    (fun kv hkv => by simp [extraPairs, c8AmendWorld] at hkv)
    [("kids", DVal.list []), ("boss", DVal.null)] rfl
  exact ⟨h1.1 rfl rfl, h2.2 rfl rfl⟩

/-! ### Decode success lemma -/

theorem from_dict_rec_ok {obj : Nat} {data : Data} :
    ∀ ps store,
      (ps.map (fun q : PropSpec => q.key)).Nodup →
      (∀ p ∈ ps, p.kind = PropKind.scalar →
        ∃ v, dictGet data (lstrip p.key) = some v) →
      ∃ s, from_dict_rec obj data ps store = Except.ok (s, none) ∧
        (∀ p ∈ ps, p.kind = PropKind.scalar →
          dictGet data (lstrip p.key) = some (s obj p.key)) ∧
        (∀ r2 k2, (∀ p ∈ ps, ¬(r2 = obj ∧ k2 = p.key)) →
          s r2 k2 = store r2 k2) := by
  intro ps
  induction ps with
  | nil =>
      intro store _ _
      exact ⟨store, rfl, fun p hp => absurd hp (List.not_mem_nil p),
        fun r2 k2 _ => rfl⟩
  | cons q rest ih =>
      intro store hnd hpres
      rw [List.map_cons, List.nodup_cons] at hnd
      cases hq : q.kind with
      | scalar =>
          obtain ⟨v, hv⟩ := hpres q (List.mem_cons_self q rest) hq
          obtain ⟨s, hrun, hread, hframe⟩ := ih (setStore store obj q.key v)
            hnd.2 (fun p hp hpk => hpres p (List.mem_cons_of_mem q hp) hpk)
          refine ⟨s, ?_, ?_, ?_⟩
          · simp only [from_dict_rec, hq, hv]
            exact hrun
          · intro p hp hpk
            rcases List.mem_cons.mp hp with rfl | hp2
            · rw [hv]
              have hfr : s obj p.key = setStore store obj p.key v obj p.key := by
                apply hframe
                intro p2 hp2 hc
                have hm2 : p2.key ∈ rest.map (fun q2 : PropSpec => q2.key) :=
                  List.mem_map_of_mem (fun q2 : PropSpec => q2.key) hp2
                rw [← hc.2] at hm2
                exact hnd.1 hm2
              rw [hfr]
              simp [setStore]
            · exact hread p hp2 hpk
          · intro r2 k2 hk2
            rw [hframe r2 k2 (fun p hp => hk2 p (List.mem_cons_of_mem q hp))]
            have hq2 := hk2 q (List.mem_cons_self q rest)
            simp only [setStore]
            rw [if_neg hq2]
      | toOne =>
          obtain ⟨s, hrun, hread, hframe⟩ := ih store hnd.2
            (fun p hp hpk => hpres p (List.mem_cons_of_mem q hp) hpk)
          refine ⟨s, ?_, ?_, ?_⟩
          · simp only [from_dict_rec, hq]
            exact hrun
          · intro p hp hpk
            rcases List.mem_cons.mp hp with rfl | hp2
            · rw [hq] at hpk
              cases hpk
            · exact hread p hp2 hpk
          · intro r2 k2 hk2
            exact hframe r2 k2 (fun p hp => hk2 p (List.mem_cons_of_mem q hp))
      | toMany =>
          obtain ⟨s, hrun, hread, hframe⟩ := ih store hnd.2
            (fun p hp hpk => hpres p (List.mem_cons_of_mem q hp) hpk)
          refine ⟨s, ?_, ?_, ?_⟩
          · simp only [from_dict_rec, hq]
            exact hrun
          · intro p hp hpk
            rcases List.mem_cons.mp hp with rfl | hp2
            · rw [hq] at hpk
              cases hpk
            · exact hread p hp2 hpk
          · intro r2 k2 hk2
            exact hframe r2 k2 (fun p hp => hk2 p (List.mem_cons_of_mem q hp))

/-! ### Claim C5 -/

/-- A record whose only property is scalar but marked serialize=false. -/
def c5World : World where
  props := fun _ => [⟨"x", false, PropKind.scalar⟩]
  scalar := fun _ _ => DVal.int 5
  toOne := fun _ _ => none
  toMany := fun _ _ => []
  extra := fun _ => none
  univ := {0, 1}

/-- C5 counterexample: for a record whose only (scalar) property has
serialize=false, `to_dict` omits the field, so decoding that output into a
fresh instance raises KeyError("x") instead of reproducing the value. -/
theorem C5_counterexample :
    to_dict c5World 0 false false = some [] ∧
      from_dict c5World 1 [] = Except.error "x" :=
  ⟨rfl, rfl⟩

/-- C5 (amended): for records whose properties are all scalar with
serialize=true and pairwise distinct stripped keys, and with no `__include__`
hook, decoding `to_dict`'s output into a fresh instance of the same type
reproduces every scalar field value exactly. -/
theorem C5_scalar_round_trip (w : World) (r r2 : Nat)
    (hall : ∀ p ∈ w.props r, p.kind = PropKind.scalar ∧ p.serialize = true)
    (hnd : ((w.props r).map (fun q => lstrip q.key)).Nodup)
    (hext : w.extra r = none)
    (hsame : w.props r2 = w.props r)
    (d : Data) (h : to_dict w r false false = some d) :
    ∃ s, from_dict w r2 d = Except.ok (s, none) ∧
      ∀ p ∈ w.props r, s r2 p.key = w.scalar r p.key := by
  obtain ⟨d0, vis2, henc, hd⟩ := to_dict_eq w r false false h
  have hget : ∀ p ∈ w.props r,
      dictGet d (lstrip p.key) = some (w.scalar r p.key) := by
    intro p hp
    rw [hd]
    unfold applyExtra
    rw [hext]
    exact encodeProps_emit
      (fun data vis =>
        stepProp_scalar_emit (hall p hp).1 (by simp [(hall p hp).2]) data vis)
      (w.props r) [] (insert r ∅) d0 vis2 hp hnd henc
  have hknd : ((w.props r).map (fun q : PropSpec => q.key)).Nodup := by
    have h2 : (((w.props r).map (fun q : PropSpec => q.key)).map lstrip).Nodup := by
      rw [List.map_map]
      exact hnd
    exact h2.of_map lstrip
  unfold from_dict
  rw [hsame]
  obtain ⟨s, hrun, hread, hframe⟩ := from_dict_rec_ok (w.props r) w.scalar hknd
    (fun p hp hpk => ⟨w.scalar r p.key, hget p hp⟩)
  refine ⟨s, hrun, ?_⟩
  intro p hp
  have hv := hread p hp (hall p hp).1
  rw [hget p hp] at hv
  injection hv with hv2
  exact hv2.symm

/-- A record type with one serializable scalar property `x`. -/
def c5AmendWorld : World where
  props := fun _ => [⟨"x", true, PropKind.scalar⟩]
  scalar := fun r _ => if r = 0 then DVal.int 5 else DVal.int 0
  toOne := fun _ _ => none
  toMany := fun _ _ => []
  extra := fun _ => none
  univ := {0, 1}

theorem C5_witness :
    ∃ s, from_dict c5AmendWorld 1 [("x", DVal.int 5)] =
        Except.ok (s, none) ∧
      ∀ p ∈ c5AmendWorld.props 0, s 1 p.key = c5AmendWorld.scalar 0 p.key :=
  C5_scalar_round_trip c5AmendWorld 0 1 (by decide) (by decide) rfl rfl
    [("x", DVal.int 5)] rfl

/-! ### Claim C9 -/

/-- A record whose only scalar property `_x` has serialize=false, while the
`__include__` hook supplies the stripped key "x". -/
def c9World : World where
  props := fun _ => [⟨"_x", false, PropKind.scalar⟩]
  scalar := fun _ _ => DVal.int 5
  toOne := fun _ _ => none
  toMany := fun _ _ => []
  extra := fun _ => some [("x", DVal.int 7)]
  univ := {0, 1}

/-- C9 counterexample: the record has a scalar serialize=false property, yet
`from_dict(new_instance, to_dict(r))` succeeds, because the `__include__`
hook supplies the stripped key "x" that decode looks up; the claimed
universal failure does not hold. -/
theorem C9_counterexample :
    (∃ p ∈ c9World.props 0, p.kind = PropKind.scalar ∧ p.serialize = false) ∧
      to_dict c9World 0 false false = some [("x", DVal.int 7)] ∧
      (from_dict c9World 1 [("x", DVal.int 7)]).isOk = true :=
  ⟨⟨⟨"_x", false, PropKind.scalar⟩, List.mem_singleton.mpr rfl, rfl, rfl⟩,
    rfl, rfl⟩

/-- C9 (amended): `from_dict` assigns every non-relationship property
regardless of its serialize flag, so it demands the stripped key even for
serialize=false properties; hence for a record with a scalar serialize=false
property whose stripped key is neither shared with another property nor
supplied by the `__include__` hook, decoding the default `to_dict` output
into a fresh instance of the same type fails with a KeyError. -/
theorem C9_round_trip_fails (w : World) (r r2 : Nat)
    (p : PropSpec) (hp : p ∈ w.props r) (hk : p.kind = PropKind.scalar)
    (hs : p.serialize = false)
    (hnd : ((w.props r).map (fun q => lstrip q.key)).Nodup)
    (hex : ∀ kv ∈ extraPairs w r, kv.1 ≠ lstrip p.key)
    (hsame : w.props r2 = w.props r)
    (d : Data) (h : to_dict w r false false = some d) :
    ∃ k, from_dict w r2 d = Except.error k := by
  have hmiss : dictGet d (lstrip p.key) = none := by
    obtain ⟨d0, vis2, henc, hd⟩ := to_dict_eq w r false false h
    rw [hd, applyExtra_get_eq hex d0]
    have hq : ∀ q ∈ w.props r, lstrip q.key = lstrip p.key →
        emits false false q = false := by
      intro q hqm hkey
      have hqp : q = p := List.inj_on_of_nodup_map hnd hqm hp hkey
      subst hqp
      simp [emits, hk, hs]
    rw [encodeProps_get_eq (w.props r) [] (insert r ∅) d0 vis2 hq henc]
    rfl
  unfold from_dict
  rw [hsame]
  obtain ⟨k, hrun, _⟩ :=
    from_dict_rec_error_of_missing (w.props r) w.scalar p hp hk hmiss
  exact ⟨k, hrun⟩

/-- A record whose only scalar property `_x` has serialize=false and no
`__include__` hook. -/
def c9AmendWorld : World where
  props := fun _ => [⟨"_x", false, PropKind.scalar⟩]
  scalar := fun _ _ => DVal.int 5
  toOne := fun _ _ => none
  toMany := fun _ _ => []
  extra := fun _ => none
  univ := {0, 1}

theorem C9_witness :
    ∃ k, from_dict c9AmendWorld 1 [] = Except.error k :=
  C9_round_trip_fails c9AmendWorld 0 1 ⟨"_x", false, PropKind.scalar⟩
    (List.mem_singleton.mpr rfl) rfl rfl (by decide)
    (fun kv hkv => by simp [extraPairs, c9AmendWorld] at hkv) rfl [] rfl

/-! ### Claim C10 -/

/-- C10: key normalization removes every leading underscore, not just one,
on both sides: for a record type whose single property is scalar with key
made of n underscores followed by t (t not beginning with an underscore),
`to_dict` emits the value under key t, `from_dict` assigns from key t, and
when t is absent the KeyError names t. -/
theorem C10_lstrip_all_underscores (w : World) (r : Nat) (n : Nat) (t : String)
    (ht : t.data.head? ≠ some '_') (p : PropSpec)
    (hkey : p.key = String.mk (List.replicate n '_' ++ t.data))
    (hk : p.kind = PropKind.scalar) (hs : p.serialize = true)
    (hprops : w.props r = [p]) (hext : w.extra r = none) :
    to_dict w r false false = some [(t, w.scalar r p.key)] ∧
    (∀ v, from_dict w r [(t, v)] =
      Except.ok (setStore w.scalar r p.key v, none)) ∧
    from_dict w r [] = Except.error t := by
  have hls : lstrip p.key = t := by
    rw [hkey, lstrip_underscores n t.data ht]
  refine ⟨?_, ?_, ?_⟩
  · unfold to_dict
    simp only [to_dict_rec]
    have henc : encodeProps w
        (fun x v => to_dict_rec w w.univ.card x [] v false false)
        r false false (w.props r) [] (insert r ∅) =
        some ([(t, w.scalar r p.key)], insert r ∅) := by
      rw [hprops]
      simp only [encodeProps]
      rw [stepProp_scalar_emit hk (by simp [hs]) [] (insert r ∅)]
      simp only [encodeProps, hls]
      rfl
    rw [henc]
    simp [applyExtra, hext]
  · intro v
    unfold from_dict
    rw [hprops]
    simp only [from_dict_rec, hk, hls]
    simp only [dictGet, if_pos rfl]
    simp
  · unfold from_dict
    rw [hprops]
    simp only [from_dict_rec, hk, hls]
    rfl

/-- A record type with a single scalar property keyed `__foo`. -/
def c10World : World where
  props := fun _ => [⟨"__foo", true, PropKind.scalar⟩]
  scalar := fun _ _ => DVal.int 9
  toOne := fun _ _ => none
  toMany := fun _ _ => []
  extra := fun _ => none
  univ := {0}

theorem C10_witness :
    to_dict c10World 0 false false = some [("foo", DVal.int 9)] ∧
    from_dict c10World 0 [("foo", DVal.int 1)] =
      Except.ok (setStore c10World.scalar 0 "__foo" (DVal.int 1), none) ∧
    from_dict c10World 0 [] = Except.error "foo" := by
  have hc := C10_lstrip_all_underscores c10World 0 2 "foo" (by decide)
    ⟨"__foo", true, PropKind.scalar⟩ rfl rfl rfl rfl rfl
  exact ⟨hc.1, hc.2.1 (DVal.int 1), hc.2.2⟩

end SAUtils
